import Mathlib

/-!
Shallow embedding of the dependency-graph traversal engine of `conf.py`
(`build_dependency_graph_bfs` and the static dependency sources).

Python dictionaries are modelled as association lists that preserve
insertion order (assignment to an existing key keeps its position, a new
key is appended at the end); `defaultdict(list)` with `.append` is
modelled by `appendEdge`; `dict.pop` by `eraseKey`.  The pluggable
dependency source (the `use_test_repo` branch reading a static table, or
`fetch_cargo_dependencies` over the network) is modelled as a function
`fetch : String → String → Except String (List (String × String))`
returning the ordered list of `(name, version_req)` descriptors or an
error; the static table variant is `static_fetch`.  Python's unbounded
recursion is given an explicit fuel parameter; `max_depth` is an
`Option Int` (`none` models `float('inf')`).
-/

/-- State mutated by `bfs_recursive` in `build_dependency_graph_bfs`:
`graph` is the `defaultdict(list)` adjacency map, `visited` the
path-scoped dict of keys currently being expanded (key ↦ depth),
`cycles_detected` the list of cycle strings, and `depth_info` the
reporting depth map. -/
structure TraversalState where
  graph : List (String × List String)
  visited : List (String × Nat)
  cycles_detected : List String
  depth_info : List (String × Nat)
deriving DecidableEq, Repr

/-- Model of `graph[package_key].append(dep_key)` on a `defaultdict(list)`:
append to the existing entry (keeping its position), or create a new
entry at the end. -/
def appendEdge (graph : List (String × List String)) (key value : String) :
    List (String × List String) :=
  if graph.any (fun p => p.1 == key) then
    graph.map (fun p => if p.1 == key then (p.1, p.2 ++ [value]) else p)
  else
    graph ++ [(key, [value])]

/-- Model of dict assignment `d[key] = value`: overwrite in place if the
key is present, else append the new entry. -/
def assocSet (m : List (String × Nat)) (key : String) (value : Nat) :
    List (String × Nat) :=
  if m.any (fun p => p.1 == key) then
    m.map (fun p => if p.1 == key then (p.1, value) else p)
  else
    m ++ [(key, value)]

/-- Model of `dict.pop(key)`: remove the (unique) entry with this key. -/
def eraseKey (m : List (String × Nat)) (key : String) : List (String × Nat) :=
  m.eraseP (fun p => p.1 == key)

/-- The guard `current_depth > max_depth`; `none` models the
`float('inf')` default, which no integer exceeds. -/
def depthExceeded (current_depth : Nat) (max_depth : Option Int) : Bool :=
  match max_depth with
  | none => false
  | some m => decide ((current_depth : Int) > m)

/-- The `for dep in dependencies:` loop body of `bfs_recursive`
(conf.py lines 138–141), one iteration per descriptor: form the
dependency key, append the edge `package_key → dep_key` to the graph,
then recurse (`visit` is the recursive visitor at the remaining fuel). -/
def bfs_deps (visit : String → String → Nat → TraversalState → TraversalState)
    (package_key : String) (current_depth : Nat) :
    List (String × String) → TraversalState → TraversalState
  | [], st => st
  | dep :: rest, st =>
    bfs_deps visit package_key current_depth rest
      (visit dep.1 dep.2 (current_depth + 1)
        { st with graph := appendEdge st.graph package_key (dep.1 ++ "@" ++ dep.2) })

/-- The inner recursive worker `bfs_recursive` of
`build_dependency_graph_bfs` (conf.py lines 113–146), with explicit fuel
for the host call stack.  Faithful to the source: the depth guard comes
first, then the path-based visited check appending
`"{key} -> ... -> {key}"` to the cycle list, then `visited` and
`depth_info` are written, the dependency list is fetched (an error is
caught and treated as no dependencies), each dependency appends an edge
and is recursed into (the loop is `bfs_deps`), and finally the key is
popped from `visited`. -/
def bfs_recursive (fetch : String → String → Except String (List (String × String)))
    (max_depth : Option Int) :
    Nat → String → String → Nat → TraversalState → TraversalState
  | 0, _, _, _, st => st
  | fuel + 1, package, version, current_depth, st =>
    if depthExceeded current_depth max_depth then st
    else
      let package_key := package ++ "@" ++ version
      if st.visited.any (fun p => p.1 == package_key) then
        { st with cycles_detected :=
            st.cycles_detected ++ [package_key ++ " -> ... -> " ++ package_key] }
      else
        let st1 : TraversalState :=
          { st with
            visited := st.visited ++ [(package_key, current_depth)],
            depth_info := assocSet st.depth_info package_key current_depth }
        let st2 : TraversalState :=
          match fetch package version with
          | Except.error _ => st1
          | Except.ok dependencies =>
            bfs_deps (bfs_recursive fetch max_depth fuel) package_key current_depth
              dependencies st1
        { st2 with visited := eraseKey st2.visited package_key }

/-- `build_dependency_graph_bfs` (conf.py line 106): run the worker from
the root at depth 0 on fresh empty state, returning the final state
(whose fields are the returned `graph, cycles_detected, depth_info`). -/
def build_dependency_graph_bfs
    (fetch : String → String → Except String (List (String × String)))
    (max_depth : Option Int) (root_package root_version : String)
    (fuel : Nat) : TraversalState :=
  bfs_recursive fetch max_depth fuel root_package root_version 0 ⟨[], [], [], []⟩

/-- The built-in demonstration table of `load_demo_dependencies`
(conf.py lines 94–104). -/
def load_demo_dependencies : List (String × List String) :=
  [("A", ["B", "C"]),
   ("B", ["D"]),
   ("C", ["A", "E"]),
   ("D", ["F"]),
   ("E", ["G"]),
   ("F", ["B"]),
   ("G", [])]

/-- `dependencies_data.get(package, [])` on a static table. -/
def depsOf (table : List (String × List String)) (package : String) : List String :=
  (List.lookup package table).getD []

/-- The static-table dependency source used when `use_test_repo` is set
(conf.py lines 127–134): every dependency carries version requirement
`"1.0"`, and fetching never fails. -/
def static_fetch (table : List (String × List String))
    (package _version : String) : Except String (List (String × String)) :=
  Except.ok ((depsOf table package).map (fun dep => (dep, "1.0")))

/-- The package key `name@1.0` given to every node of a static table. -/
def keyOf (name : String) : String := name ++ "@" ++ "1.0"

/-- One step of the dependency relation of a static table:
`y` is among the listed dependencies of `x`. -/
def depStep (table : List (String × List String)) (x y : String) : Prop :=
  y ∈ depsOf table x

/-- The dependency list of a node of a static table, rendered as the
package keys the engine would record as its outgoing edges. -/
def mdeps (table : List (String × List String)) (name : String) : List String :=
  (depsOf table name).map keyOf

def table3 : List (String × List String) :=
  [("A", ["B", "C"]), ("B", ["D"]), ("C", ["D", "E"]), ("D", ["F"]), ("E", ["A"]), ("F", [])]

def table6 : List (String × List String) :=
  [("A", ["B", "C"]), ("B", ["D"]), ("C", ["B"]), ("D", [])]

def table7 : List (String × List String) :=
  [("A", ["B", "C"]), ("B", ["D"]), ("C", ["D"]), ("D", ["E"]), ("E", [])]

def table9 : List (String × List String) :=
  [("A", ["B", "C", "D"]), ("B", ["E"]), ("C", ["E"]), ("D", ["E"]), ("E", ["F"]), ("F", [])]

def table4 : List (String × List String) :=
  [("A", ["B", "C"]), ("B", ["Z"]), ("C", ["D"]), ("D", []), ("Z", [])]

def fetch_err (package version : String) : Except String (List (String × String)) :=
  if package == "B" then Except.error "network failure" else static_fetch table4 package version

theorem bool_eq_false_of_ne_true {b : Bool} (h : ¬ b = true) : b = false := by
  cases b with
  | false => rfl
  | true => exact absurd rfl h

theorem beq_comm_false (a b : String) (h : (a == b) = false) : (b == a) = false := by
  simp only [beq_eq_false_iff_ne] at h ⊢
  exact fun e => h e.symm

theorem lookup_cons_self {β : Type} (k : String) (v : β) (l : List (String × β)) :
    List.lookup k ((k, v) :: l) = some v := by
  simp [List.lookup]

theorem lookup_cons_ne {β : Type} (k a : String) (v : β) (l : List (String × β))
    (h : (a == k) = false) : List.lookup a ((k, v) :: l) = List.lookup a l := by
  simp [List.lookup, h]

theorem lookup_eq_none_of_any_false (g : List (String × List String)) (k : String)
    (h : g.any (fun p => p.1 == k) = false) : List.lookup k g = none := by
  induction g with
  | nil => rfl
  | cons p g ih =>
    obtain ⟨pk, pv⟩ := p
    simp only [List.any_cons, Bool.or_eq_false_iff] at h
    rw [lookup_cons_ne pk k pv g (beq_comm_false _ _ h.1)]
    exact ih h.2

theorem lookup_isSome_of_any_true (g : List (String × List String)) (k : String)
    (h : g.any (fun p => p.1 == k) = true) : ∃ w, List.lookup k g = some w := by
  induction g with
  | nil => simp at h
  | cons p g ih =>
    obtain ⟨pk, pv⟩ := p
    by_cases hp : (pk == k) = true
    · have hp1 : pk = k := by simpa using hp
      subst hp1
      exact ⟨pv, lookup_cons_self pk pv g⟩
    · have hp0 : (pk == k) = false := by simpa using hp
      simp only [List.any_cons, hp0, Bool.false_or] at h
      obtain ⟨w, hw⟩ := ih h
      exact ⟨w, by rw [lookup_cons_ne pk k pv g (beq_comm_false _ _ hp0)]; exact hw⟩

theorem lookup_map_update_ne (g : List (String × List String)) (k k' v : String)
    (h : (k' == k) = false) :
    List.lookup k' (g.map (fun p => if p.1 == k then (p.1, p.2 ++ [v]) else p))
      = List.lookup k' g := by
  induction g with
  | nil => rfl
  | cons p g ih =>
    obtain ⟨pk, pv⟩ := p
    by_cases hp : (pk == k) = true
    · have hp1 : pk = k := by simpa using hp
      subst hp1
      simp only [List.map_cons, hp, if_true]
      rw [lookup_cons_ne pk k' (pv ++ [v]) _ h, lookup_cons_ne pk k' pv _ h]
      exact ih
    · have hp0 : (pk == k) = false := by simpa using hp
      simp only [List.map_cons, hp0, Bool.false_eq_true, if_false]
      by_cases hk : (k' == pk) = true
      · have hk1 : k' = pk := by simpa using hk
        subst hk1
        rw [lookup_cons_self, lookup_cons_self]
      · have hk0 : (k' == pk) = false := by simpa using hk
        rw [lookup_cons_ne pk k' pv _ hk0, lookup_cons_ne pk k' pv _ hk0]
        exact ih

theorem lookup_map_update_self (g : List (String × List String)) (k v : String) :
    List.lookup k (g.map (fun p => if p.1 == k then (p.1, p.2 ++ [v]) else p))
      = (List.lookup k g).map (fun w => w ++ [v]) := by
  induction g with
  | nil => rfl
  | cons p g ih =>
    obtain ⟨pk, pv⟩ := p
    by_cases hp : (pk == k) = true
    · have hp1 : pk = k := by simpa using hp
      subst hp1
      simp only [List.map_cons, hp, if_true]
      rw [lookup_cons_self, lookup_cons_self]
      rfl
    · have hp0 : (pk == k) = false := by simpa using hp
      simp only [List.map_cons, hp0, Bool.false_eq_true, if_false]
      rw [lookup_cons_ne pk k pv _ (beq_comm_false _ _ hp0),
        lookup_cons_ne pk k pv _ (beq_comm_false _ _ hp0)]
      exact ih

theorem lookup_append_new_self (g : List (String × List String)) (k : String) (w : List String)
    (h : List.lookup k g = none) : List.lookup k (g ++ [(k, w)]) = some w := by
  induction g with
  | nil => exact lookup_cons_self k w []
  | cons p g ih =>
    obtain ⟨pk, pv⟩ := p
    by_cases hk : (k == pk) = true
    · have hk1 : k = pk := by simpa using hk
      subst hk1
      rw [lookup_cons_self] at h
      exact absurd h (by simp)
    · have hk0 : (k == pk) = false := by simpa using hk
      rw [lookup_cons_ne pk k pv g hk0] at h
      rw [List.cons_append, lookup_cons_ne pk k pv _ hk0]
      exact ih h

theorem lookup_append_new_ne (g : List (String × List String)) (k k' : String) (w : List String)
    (h : (k' == k) = false) : List.lookup k' (g ++ [(k, w)]) = List.lookup k' g := by
  induction g with
  | nil => simpa using lookup_cons_ne k k' w [] h
  | cons p g ih =>
    obtain ⟨pk, pv⟩ := p
    by_cases hk : (k' == pk) = true
    · have hk1 : k' = pk := by simpa using hk
      subst hk1
      rw [List.cons_append, lookup_cons_self, lookup_cons_self]
    · have hk0 : (k' == pk) = false := by simpa using hk
      rw [List.cons_append, lookup_cons_ne pk k' pv _ hk0, lookup_cons_ne pk k' pv g hk0]
      exact ih

theorem lookup_appendEdge_self (g : List (String × List String)) (k v : String) :
    List.lookup k (appendEdge g k v) = some ((List.lookup k g).getD [] ++ [v]) := by
  unfold appendEdge
  split
  next hany =>
    rw [lookup_map_update_self]
    obtain ⟨w, hw⟩ := lookup_isSome_of_any_true g k hany
    rw [hw]; rfl
  next hany =>
    have h0 : List.lookup k g = none :=
      lookup_eq_none_of_any_false g k (bool_eq_false_of_ne_true hany)
    rw [lookup_append_new_self g k [v] h0, h0]
    rfl

theorem lookup_appendEdge_ne (g : List (String × List String)) (k k' v : String)
    (h : (k' == k) = false) :
    List.lookup k' (appendEdge g k v) = List.lookup k' g := by
  unfold appendEdge
  split
  next => exact lookup_map_update_ne g k k' v h
  next => exact lookup_append_new_ne g k k' [v] h

theorem map_fst_map_update (g : List (String × List String)) (k v : String) :
    (g.map (fun p => if p.1 == k then (p.1, p.2 ++ [v]) else p)).map Prod.fst
      = g.map Prod.fst := by
  rw [List.map_map]
  refine List.map_congr_left ?_
  intro p _
  obtain ⟨pk, pv⟩ := p
  by_cases hp : (pk == k) = true
  · have hpk : pk = k := by simpa using hp
    simp [hpk]
  · have hpk : pk ≠ k := by simpa using hp
    simp [hpk]

theorem nodup_keys_appendEdge (g : List (String × List String)) (k v : String)
    (h : (g.map Prod.fst).Nodup) : ((appendEdge g k v).map Prod.fst).Nodup := by
  unfold appendEdge
  split
  next => rw [map_fst_map_update]; exact h
  next hany =>
    rw [List.map_append]
    have hk : k ∉ g.map Prod.fst := by
      intro hmem
      obtain ⟨p, hp, hp1⟩ := List.mem_map.mp hmem
      have : g.any (fun p => p.1 == k) = true :=
        List.any_eq_true.mpr ⟨p, hp, by simp [hp1]⟩
      rw [this] at hany
      exact absurd rfl hany
    rw [List.nodup_append]
    refine ⟨h, List.nodup_singleton _, ?_⟩
    intro a ha hb
    simp only [List.map_cons, List.map_nil, List.mem_singleton] at hb
    exact hk (hb ▸ ha)

theorem lookup_of_mem_nodup (g : List (String × List String))
    (h : (g.map Prod.fst).Nodup) : ∀ e ∈ g, List.lookup e.1 g = some e.2 := by
  induction g with
  | nil => intro e he; simp at he
  | cons p g ih =>
    intro e he
    rcases List.mem_cons.mp he with rfl | he'
    · simp [List.lookup]
    · have hne : (e.1 == p.1) = false := by
        simp only [List.map_cons, List.nodup_cons] at h
        have : e.1 ∈ g.map Prod.fst := List.mem_map.mpr ⟨e, he', rfl⟩
        simp only [beq_eq_false_iff_ne]
        exact fun hep => h.1 (hep ▸ this)
      have h' : (g.map Prod.fst).Nodup := by
        simp only [List.map_cons, List.nodup_cons] at h
        exact h.2
      simp [List.lookup, hne, ih h' e he']

theorem eraseKey_append_of_any_false (m : List (String × Nat)) (k : String) (v : Nat)
    (h : m.any (fun p => p.1 == k) = false) : eraseKey (m ++ [(k, v)]) k = m := by
  induction m with
  | nil => simp [eraseKey, List.eraseP]
  | cons p m ih =>
    simp only [List.any_cons, Bool.or_eq_false_iff] at h
    simp only [List.cons_append, eraseKey, List.eraseP_cons, h.1, cond_false]
    exact congrArg (p :: ·) (ih h.2)

theorem bfs_fuel_zero (fetch : String → String → Except String (List (String × String)))
    (max_depth : Option Int) (package version : String) (current_depth : Nat)
    (st : TraversalState) :
    bfs_recursive fetch max_depth 0 package version current_depth st = st := rfl

theorem bfs_depth_stops (fetch : String → String → Except String (List (String × String)))
    (max_depth : Option Int) (fuel : Nat) (package version : String) (current_depth : Nat)
    (st : TraversalState) (h : depthExceeded current_depth max_depth = true) :
    bfs_recursive fetch max_depth fuel package version current_depth st = st := by
  cases fuel with
  | zero => rfl
  | succ fuel => simp [bfs_recursive, h]

theorem bfs_deps_visited (visit : String → String → Nat → TraversalState → TraversalState)
    (hv : ∀ n v d s, (visit n v d s).visited = s.visited)
    (package_key : String) (current_depth : Nat) :
    ∀ (l : List (String × String)) (st : TraversalState),
      (bfs_deps visit package_key current_depth l st).visited = st.visited := by
  intro l
  induction l with
  | nil => intro st; rfl
  | cons dep rest ih =>
    intro st
    simp only [bfs_deps]
    rw [ih, hv]

theorem bfs_visited_stable (fetch : String → String → Except String (List (String × String)))
    (max_depth : Option Int) :
    ∀ (fuel : Nat) (package version : String) (current_depth : Nat) (st : TraversalState),
      (bfs_recursive fetch max_depth fuel package version current_depth st).visited
        = st.visited := by
  intro fuel
  induction fuel with
  | zero => intro _ _ _ _; rfl
  | succ fuel ih =>
    intro package version current_depth st
    simp only [bfs_recursive]
    by_cases hd : depthExceeded current_depth max_depth = true
    · simp [hd]
    · simp only [bool_eq_false_of_ne_true hd, Bool.false_eq_true, if_false]
      by_cases hv : st.visited.any (fun p => p.1 == package ++ "@" ++ version) = true
      · simp [hv]
      · have hv0 := bool_eq_false_of_ne_true hv
        simp only [hv0, Bool.false_eq_true, if_false]
        cases hfetch : fetch package version with
        | error e => simp [hfetch, eraseKey_append_of_any_false _ _ _ hv0]
        | ok dependencies =>
          simp [hfetch, bfs_deps_visited (bfs_recursive fetch max_depth fuel) ih,
            eraseKey_append_of_any_false _ _ _ hv0]

theorem bfs_graph_frozen (fetch : String → String → Except String (List (String × String)))
    (max_depth : Option Int) (k : String) :
    ∀ (fuel : Nat) (package version : String) (current_depth : Nat) (st : TraversalState),
      st.visited.any (fun p => p.1 == k) = true →
      List.lookup k (bfs_recursive fetch max_depth fuel package version current_depth st).graph
        = List.lookup k st.graph := by
  intro fuel
  induction fuel with
  | zero => intro _ _ _ _ _; rfl
  | succ fuel ih =>
    intro package version current_depth st hk
    simp only [bfs_recursive]
    by_cases hd : depthExceeded current_depth max_depth = true
    · simp [hd]
    · simp only [bool_eq_false_of_ne_true hd, Bool.false_eq_true, if_false]
      by_cases hv : st.visited.any (fun p => p.1 == package ++ "@" ++ version) = true
      · simp [hv]
      · have hv0 := bool_eq_false_of_ne_true hv
        simp only [hv0, Bool.false_eq_true, if_false]
        have hker : ((package ++ "@" ++ version) == k) = false := by
          by_cases he : ((package ++ "@" ++ version) == k) = true
          · have heq : package ++ "@" ++ version = k := by simpa using he
            rw [heq] at hv0
            rw [hv0] at hk
            exact absurd hk (by simp)
          · exact bool_eq_false_of_ne_true he
        have hdeps : ∀ (l : List (String × String)) (acc : TraversalState),
            acc.visited.any (fun p => p.1 == k) = true →
            List.lookup k (bfs_deps (bfs_recursive fetch max_depth fuel)
              (package ++ "@" ++ version) current_depth l acc).graph
              = List.lookup k acc.graph := by
          intro l
          induction l with
          | nil => intro acc _; rfl
          | cons dep rest ihl =>
            intro acc hacc
            simp only [bfs_deps]
            have hacc1 : (TraversalState.mk
                (appendEdge acc.graph (package ++ "@" ++ version) (dep.1 ++ "@" ++ dep.2))
                acc.visited acc.cycles_detected acc.depth_info).visited.any
                  (fun p => p.1 == k) = true := hacc
            have hchild := ih dep.1 dep.2 (current_depth + 1) _ hacc1
            have hchildv := bfs_visited_stable fetch max_depth fuel dep.1 dep.2
              (current_depth + 1) (TraversalState.mk
                (appendEdge acc.graph (package ++ "@" ++ version) (dep.1 ++ "@" ++ dep.2))
                acc.visited acc.cycles_detected acc.depth_info)
            rw [ihl _ (by rw [hchildv]; exact hacc), hchild]
            exact lookup_appendEdge_ne acc.graph (package ++ "@" ++ version) k
              (dep.1 ++ "@" ++ dep.2) (beq_comm_false _ _ hker)
        cases hfetch : fetch package version with
        | error e => simp [hfetch]
        | ok dependencies =>
          simp only [hfetch]
          have hst1 : (TraversalState.mk st.graph
              (st.visited ++ [(package ++ "@" ++ version, current_depth)])
              st.cycles_detected
              (assocSet st.depth_info (package ++ "@" ++ version) current_depth)).visited.any
                (fun p => p.1 == k) = true := by
            simp only [List.any_append, hk, Bool.true_or]
          simpa using hdeps dependencies _ hst1

theorem keyOf_inj {a b : String} (h : keyOf a = keyOf b) : a = b := by
  have h1 : (keyOf a).data = (keyOf b).data := congrArg String.data h
  simp only [keyOf, String.data_append, List.append_assoc] at h1
  exact String.ext (List.append_cancel_right h1)

theorem chain'_cons_concat_transGen {r : String → String → Prop} :
    ∀ (l : List String) (a b : String),
      List.Chain' r (a :: (l ++ [b])) → Relation.TransGen r a b := by
  intro l
  induction l with
  | nil =>
    intro a b h
    simp only [List.nil_append] at h
    exact Relation.TransGen.single (List.chain'_pair.mp h)
  | cons c l ihl =>
    intro a b h
    simp only [List.cons_append] at h
    rcases List.chain'_cons.mp h with ⟨hac, hrest⟩
    exact Relation.TransGen.head hac (ihl c b hrest)

theorem bfs_static_dag_no_cycle (table : List (String × List String)) (md : Option Int)
    (root : String)
    (hacyc : ∀ n, Relation.ReflTransGen (depStep table) root n →
      ¬ Relation.TransGen (depStep table) n n) :
    ∀ (fuel : Nat) (name : String) (depth : Nat) (st : TraversalState) (path : List String),
      st.visited.map Prod.fst = path.map keyOf →
      List.Chain' (depStep table) (path ++ [name]) →
      (∀ v ∈ path ++ [name], Relation.ReflTransGen (depStep table) root v) →
      (bfs_recursive (static_fetch table) md fuel name "1.0" depth st).cycles_detected
        = st.cycles_detected := by
  intro fuel
  induction fuel with
  | zero => intro _ _ _ _ _ _ _; rfl
  | succ fuel ih =>
    intro name depth st path hpath hchain hreach
    simp only [bfs_recursive]
    by_cases hd : depthExceeded depth md = true
    · simp [hd]
    · simp only [bool_eq_false_of_ne_true hd, Bool.false_eq_true, if_false]
      by_cases hv : st.visited.any (fun p => p.1 == name ++ "@" ++ "1.0") = true
      · exfalso
        obtain ⟨p, hpmem, hpeq⟩ := List.any_eq_true.mp hv
        have hpk : p.1 = name ++ "@" ++ "1.0" := by simpa using hpeq
        have hmem1 : p.1 ∈ path.map keyOf := by
          rw [← hpath]
          exact List.mem_map.mpr ⟨p, hpmem, rfl⟩
        obtain ⟨v, hvmem, hveq⟩ := List.mem_map.mp hmem1
        have hvname : v = name := keyOf_inj (by rw [hveq, hpk]; rfl)
        subst hvname
        obtain ⟨p1, p2, rfl⟩ := List.append_of_mem hvmem
        have hchain2 : List.Chain' (depStep table) (v :: (p2 ++ [v])) := by
          have : (p1 ++ v :: p2) ++ [v] = p1 ++ (v :: (p2 ++ [v])) := by
            simp [List.append_assoc]
          rw [this] at hchain
          exact hchain.right_of_append
        have htg : Relation.TransGen (depStep table) v v :=
          chain'_cons_concat_transGen p2 v v hchain2
        have hvreach : Relation.ReflTransGen (depStep table) root v :=
          hreach v (List.mem_append.mpr (Or.inl (by simp)))
        exact hacyc v hvreach htg
      · have hv0 := bool_eq_false_of_ne_true hv
        simp only [hv0, Bool.false_eq_true, if_false, static_fetch]
        have hfold : ∀ (l : List (String × String)),
            (∀ p ∈ l, p.2 = "1.0" ∧ depStep table name p.1) →
            ∀ acc : TraversalState,
            acc.visited = st.visited ++ [(name ++ "@" ++ "1.0", depth)] →
            acc.cycles_detected = st.cycles_detected →
            (bfs_deps (bfs_recursive (static_fetch table) md fuel)
                (name ++ "@" ++ "1.0") depth l acc).cycles_detected
              = st.cycles_detected := by
          intro l
          induction l with
          | nil => intro _ acc _ hcyc; exact hcyc
          | cons dep rest ihl =>
            intro hl acc hvis hcyc
            obtain ⟨hdep2, hdepstep⟩ := hl dep (List.mem_cons_self dep rest)
            simp only [bfs_deps]
            rw [hdep2]
            have hchild := ih dep.1 (depth + 1)
              (TraversalState.mk
                (appendEdge acc.graph (name ++ "@" ++ "1.0") (dep.1 ++ "@" ++ "1.0"))
                acc.visited acc.cycles_detected acc.depth_info)
              (path ++ [name])
              (by simp only [hvis, List.map_append, hpath, List.map_cons, List.map_nil]
                  simp [keyOf])
              (by refine List.Chain'.append hchain (List.chain'_singleton dep.1) ?_
                  intro x hx y hy
                  rw [List.getLast?_concat] at hx
                  simp only [List.head?_cons, Option.mem_some_iff] at hx hy
                  subst hx
                  subst hy
                  exact hdepstep)
              (by intro v hvm
                  rcases List.mem_append.mp hvm with hvm1 | hvm2
                  · exact hreach v hvm1
                  · have : v = dep.1 := by simpa using hvm2
                    subst this
                    exact Relation.ReflTransGen.tail
                      (hreach name (List.mem_append.mpr (Or.inr (by simp)))) hdepstep)
            have hchildv := bfs_visited_stable (static_fetch table) md fuel dep.1 "1.0"
              (depth + 1)
              (TraversalState.mk
                (appendEdge acc.graph (name ++ "@" ++ "1.0") (dep.1 ++ "@" ++ "1.0"))
                acc.visited acc.cycles_detected acc.depth_info)
            exact ihl (fun p hp => hl p (List.mem_cons_of_mem dep hp)) _
              (by rw [hchildv]; exact hvis)
              (by rw [hchild]; exact hcyc)
        have hdepsprop : ∀ p ∈ (depsOf table name).map (fun dep => (dep, "1.0")),
            p.2 = "1.0" ∧ depStep table name p.1 := by
          intro p hp
          obtain ⟨d, hd1, rfl⟩ := List.mem_map.mp hp
          exact ⟨rfl, hd1⟩
        simpa using hfold ((depsOf table name).map (fun dep => (dep, "1.0"))) hdepsprop
          (TraversalState.mk st.graph
            (st.visited ++ [(name ++ "@" ++ "1.0", depth)])
            st.cycles_detected
            (assocSet st.depth_info (name ++ "@" ++ "1.0") depth))
          rfl rfl

theorem bfs_graph_shape (table : List (String × List String)) (md : Option Int) :
    ∀ (fuel : Nat) (name : String) (depth : Nat) (st : TraversalState),
      (∀ m : String, ∃ n : Nat,
        ((List.lookup (m ++ "@" ++ "1.0")
            (bfs_recursive (static_fetch table) md fuel name "1.0" depth st).graph).getD [])
          = ((List.lookup (m ++ "@" ++ "1.0") st.graph).getD [])
            ++ (List.replicate n
                ((depsOf table m).map (fun d => d ++ "@" ++ "1.0"))).flatten)
      ∧ (∀ k : String, (∀ m : String, k ≠ m ++ "@" ++ "1.0") →
          List.lookup k (bfs_recursive (static_fetch table) md fuel name "1.0" depth st).graph
            = List.lookup k st.graph)
      ∧ ((st.graph.map Prod.fst).Nodup →
          ((bfs_recursive (static_fetch table) md fuel name "1.0" depth st).graph.map
            Prod.fst).Nodup) := by
  intro fuel
  induction fuel with
  | zero =>
    intro name depth st
    exact ⟨fun m => ⟨0, by simp [bfs_fuel_zero]⟩, fun k _ => rfl, fun h => h⟩
  | succ fuel ih =>
    intro name depth st
    by_cases hd : depthExceeded depth md = true
    · rw [bfs_depth_stops (static_fetch table) md (fuel + 1) name "1.0" depth st hd]
      exact ⟨fun m => ⟨0, by simp⟩, fun k _ => rfl, fun h => h⟩
    · by_cases hv : st.visited.any (fun p => p.1 == name ++ "@" ++ "1.0") = true
      · have hcyc : bfs_recursive (static_fetch table) md (fuel + 1) name "1.0" depth st
            = { st with cycles_detected := st.cycles_detected
                ++ [name ++ "@" ++ "1.0" ++ " -> ... -> " ++ (name ++ "@" ++ "1.0")] } := by
          simp only [bfs_recursive, bool_eq_false_of_ne_true hd, Bool.false_eq_true,
            if_false, hv, if_true]
        rw [hcyc]
        exact ⟨fun m => ⟨0, by simp⟩, fun k _ => rfl, fun h => h⟩
      · have hv0 := bool_eq_false_of_ne_true hv
        simp only [bfs_recursive, bool_eq_false_of_ne_true hd, Bool.false_eq_true, if_false,
          hv0, static_fetch]
        have hkeyany : ((st.visited ++ [(name ++ "@" ++ "1.0", depth)]).any
            (fun p => p.1 == name ++ "@" ++ "1.0")) = true := by
          simp [List.any_append]
        have hfold : ∀ (l : List (String × String)),
            (∀ p ∈ l, p.2 = "1.0") →
            ∀ acc : TraversalState,
            acc.visited = st.visited ++ [(name ++ "@" ++ "1.0", depth)] →
            (∀ m : String, m ≠ name → ∃ n : Nat,
              ((List.lookup (m ++ "@" ++ "1.0")
                  (bfs_deps (bfs_recursive (static_fetch table) md fuel)
                    (name ++ "@" ++ "1.0") depth l acc).graph).getD [])
                = ((List.lookup (m ++ "@" ++ "1.0") acc.graph).getD [])
                  ++ (List.replicate n
                      ((depsOf table m).map (fun d => d ++ "@" ++ "1.0"))).flatten)
            ∧ (((List.lookup (name ++ "@" ++ "1.0")
                  (bfs_deps (bfs_recursive (static_fetch table) md fuel)
                    (name ++ "@" ++ "1.0") depth l acc).graph).getD [])
                = ((List.lookup (name ++ "@" ++ "1.0") acc.graph).getD [])
                  ++ l.map (fun p => p.1 ++ "@" ++ p.2))
            ∧ (∀ k : String, (∀ m : String, k ≠ m ++ "@" ++ "1.0") →
                List.lookup k (bfs_deps (bfs_recursive (static_fetch table) md fuel)
                    (name ++ "@" ++ "1.0") depth l acc).graph
                  = List.lookup k acc.graph)
            ∧ ((acc.graph.map Prod.fst).Nodup →
                ((bfs_deps (bfs_recursive (static_fetch table) md fuel)
                  (name ++ "@" ++ "1.0") depth l acc).graph.map Prod.fst).Nodup) := by
          intro l
          induction l with
          | nil =>
            intro _ acc _
            exact ⟨fun m _ => ⟨0, by simp [bfs_deps]⟩, by simp [bfs_deps], fun k _ => rfl,
              fun h => h⟩
          | cons dep rest ihl =>
            intro hl acc hvis
            have hdep2 : dep.2 = "1.0" := hl dep (List.mem_cons_self dep rest)
            simp only [bfs_deps, List.map_cons]
            rw [hdep2]
            have hchild := ih dep.1 (depth + 1)
              (TraversalState.mk
                (appendEdge acc.graph (name ++ "@" ++ "1.0") (dep.1 ++ "@" ++ "1.0"))
                acc.visited acc.cycles_detected acc.depth_info)
            have hchildvis := bfs_visited_stable (static_fetch table) md fuel dep.1 "1.0"
              (depth + 1)
              (TraversalState.mk
                (appendEdge acc.graph (name ++ "@" ++ "1.0") (dep.1 ++ "@" ++ "1.0"))
                acc.visited acc.cycles_detected acc.depth_info)
            have hfrozen := bfs_graph_frozen (static_fetch table) md (name ++ "@" ++ "1.0")
              fuel dep.1 "1.0" (depth + 1)
              (TraversalState.mk
                (appendEdge acc.graph (name ++ "@" ++ "1.0") (dep.1 ++ "@" ++ "1.0"))
                acc.visited acc.cycles_detected acc.depth_info)
              (by rw [show (TraversalState.mk
                  (appendEdge acc.graph (name ++ "@" ++ "1.0") (dep.1 ++ "@" ++ "1.0"))
                  acc.visited acc.cycles_detected acc.depth_info).visited = acc.visited
                  from rfl, hvis]
                  exact hkeyany)
            have hrest := ihl (fun p hp => hl p (List.mem_cons_of_mem dep hp)) _
              (by rw [hchildvis]; exact hvis)
            refine ⟨?_, ?_, ?_, ?_⟩
            · intro m hm
              have hkm : ((m ++ "@" ++ "1.0") == (name ++ "@" ++ "1.0")) = false := by
                refine beq_eq_false_iff_ne.mpr ?_
                intro he
                exact hm (keyOf_inj he)
              obtain ⟨n2, hn2⟩ := hrest.1 m hm
              obtain ⟨n1, hn1⟩ := hchild.1 m
              refine ⟨n1 + n2, ?_⟩
              rw [hn2, hn1]
              rw [show List.lookup (m ++ "@" ++ "1.0")
                  (TraversalState.mk
                    (appendEdge acc.graph (name ++ "@" ++ "1.0") (dep.1 ++ "@" ++ "1.0"))
                    acc.visited acc.cycles_detected acc.depth_info).graph
                = List.lookup (m ++ "@" ++ "1.0") acc.graph from
                  lookup_appendEdge_ne acc.graph (name ++ "@" ++ "1.0") (m ++ "@" ++ "1.0")
                    (dep.1 ++ "@" ++ "1.0") hkm]
              rw [List.replicate_add, List.flatten_append, List.append_assoc]
            · have h2 := hrest.2.1
              rw [h2]
              have h3 : List.lookup (name ++ "@" ++ "1.0")
                  (bfs_recursive (static_fetch table) md fuel dep.1 "1.0" (depth + 1)
                    (TraversalState.mk
                      (appendEdge acc.graph (name ++ "@" ++ "1.0") (dep.1 ++ "@" ++ "1.0"))
                      acc.visited acc.cycles_detected acc.depth_info)).graph
                  = some (((List.lookup (name ++ "@" ++ "1.0") acc.graph).getD [])
                      ++ [dep.1 ++ "@" ++ "1.0"]) := by
                rw [hfrozen]
                exact lookup_appendEdge_self acc.graph (name ++ "@" ++ "1.0")
                  (dep.1 ++ "@" ++ "1.0")
              rw [h3]
              simp [List.append_assoc]
            · intro k hk
              have hkk : (k == (name ++ "@" ++ "1.0")) = false :=
                beq_eq_false_iff_ne.mpr (hk name)
              rw [hrest.2.2.1 k hk, hchild.2.1 k hk]
              exact lookup_appendEdge_ne acc.graph (name ++ "@" ++ "1.0") k
                (dep.1 ++ "@" ++ "1.0") hkk
            · intro hnd
              exact hrest.2.2.2 (hchild.2.2
                (nodup_keys_appendEdge acc.graph (name ++ "@" ++ "1.0")
                  (dep.1 ++ "@" ++ "1.0") hnd))
        have hmain := hfold ((depsOf table name).map (fun dep => (dep, "1.0")))
          (by intro p hp; obtain ⟨d, _, rfl⟩ := List.mem_map.mp hp; rfl)
          (TraversalState.mk st.graph (st.visited ++ [(name ++ "@" ++ "1.0", depth)])
            st.cycles_detected (assocSet st.depth_info (name ++ "@" ++ "1.0") depth))
          rfl
        refine ⟨?_, ?_, ?_⟩
        · intro m
          by_cases hm : m = name
          · subst hm
            refine ⟨1, ?_⟩
            have h2 := hmain.2.1
            rw [List.map_map] at h2
            simpa using h2
          · obtain ⟨n, hn⟩ := hmain.1 m hm
            exact ⟨n, by simpa using hn⟩
        · intro k hk
          have := hmain.2.2.1 k hk
          simpa using this
        · intro hnd
          have := hmain.2.2.2 hnd
          simpa using this

/-- Claim C1: on the built-in demonstration table, traversal from `A`
with unbounded depth reports exactly two cycle records, one closing at
`B@1.0` (discovered along `B→D→F→B`) and one closing at `A@1.0`
(discovered along `A→C→A`). -/
theorem demo_table_reports_two_cycles :
    (build_dependency_graph_bfs (static_fetch load_demo_dependencies) none "A" "1.0" 20).cycles_detected
      = ["B@1.0 -> ... -> B@1.0", "A@1.0 -> ... -> A@1.0"] := by decide

/-- Claim C3 counterexample: on the table `A→[B,C], B→[D], C→[D,E],
D→[F], E→[A], F→[]` the single cycle record is the string
`"A@1.0 -> ... -> A@1.0"`, which mentions neither `C` nor `E` and hence
does not identify the path `A → C → E → A`; the record elides the path
and names only the closing key. -/
theorem cycle_record_omits_path :
    (build_dependency_graph_bfs (static_fetch table3) none "A" "1.0" 20).cycles_detected
      = ["A@1.0 -> ... -> A@1.0"]
    ∧ ("A@1.0 -> ... -> A@1.0".data.contains 'C') = false
    ∧ ("A@1.0 -> ... -> A@1.0".data.contains 'E') = false := by decide

/-- Claim C3 amended: traversal of `A→[B,C], B→[D], C→[D,E], D→[F],
E→[A], F→[]` from `A` with unbounded depth reports exactly one cycle,
closing at `A@1.0`, recorded as `"A@1.0 -> ... -> A@1.0"` (closing key
only, the path slice is not captured), and the returned graph does
contain the edges `D→F` and `C→D` discovered before the cycle. -/
theorem cycle_record_closing_key_and_edges :
    (build_dependency_graph_bfs (static_fetch table3) none "A" "1.0" 20).cycles_detected
      = ["A@1.0 -> ... -> A@1.0"]
    ∧ "F@1.0" ∈ (List.lookup "D@1.0"
        (build_dependency_graph_bfs (static_fetch table3) none "A" "1.0" 20).graph).getD []
    ∧ "D@1.0" ∈ (List.lookup "C@1.0"
        (build_dependency_graph_bfs (static_fetch table3) none "A" "1.0" 20).graph).getD [] := by
  decide

/-- Claim C4 counterexample: with a source that fails on `B`, the node
`B@1.0` does not appear as a map entry of the returned graph at all
(`defaultdict` creates entries only on append), contradicting the claim
that it appears with an empty outgoing-edge list. -/
theorem failed_fetch_node_absent_from_graph :
    fetch_err "B" "1.0" = Except.error "network failure"
    ∧ List.lookup "B@1.0" (build_dependency_graph_bfs fetch_err none "A" "1.0" 20).graph
        = none := ⟨rfl, by decide⟩

/-- Claim C4 amended: when the fetch for `B` fails, `B@1.0` gets no
graph entry (it is still recorded in the depth map at depth 1), and the
traversal continues unaffected into the sibling branch `C`, recording
`C`'s node and edges and its child `D` as usual instead of aborting. -/
theorem failed_fetch_best_effort_result :
    build_dependency_graph_bfs fetch_err none "A" "1.0" 20 =
      { graph := [("A@1.0", ["B@1.0", "C@1.0"]), ("C@1.0", ["D@1.0"])],
        visited := [],
        cycles_detected := [],
        depth_info := [("A@1.0", 0), ("B@1.0", 1), ("C@1.0", 1), ("D@1.0", 2)] } := by decide

/-- Claim C6 counterexample: on the table `A→[B,C], B→[D], C→[B],
D→[]`, node `B` is first expanded at depth 1 (via `A→B`) and re-expanded
at depth 2 (via `A→C→B`), and the returned depth map records 2, not the
first-discovery depth 1. -/
theorem depth_info_not_first_discovery :
    List.lookup "B@1.0"
        (build_dependency_graph_bfs (static_fetch table6) none "A" "1.0" 20).depth_info
      = some 2
    ∧ List.lookup "B@1.0"
        (build_dependency_graph_bfs (static_fetch table6) none "A" "1.0" 20).depth_info
      ≠ some 1 := by decide

/-- Claim C6 amended: the depth map records, for a key expanded more
than once, the depth of the latest expansion (each re-expansion
overwrites the entry in place): on `A→[B,C], B→[D], C→[B], D→[]` the
final map is `A↦0, B↦2, D↦3, C↦1`, with `B` and `D` holding the depths
of their second expansions. -/
theorem depth_info_records_latest_expansion :
    (build_dependency_graph_bfs (static_fetch table6) none "A" "1.0" 20).depth_info
      = [("A@1.0", 0), ("B@1.0", 2), ("D@1.0", 3), ("C@1.0", 1)] := by decide

/-- Claim C7 counterexample: on the table `A→[B,C], B→[D], C→[D],
D→[E], E→[]`, node `D` is expanded once per branch, so its recorded
edge list is `[E@1.0, E@1.0]`, which is not equal element-for-element
to the single-element dependency list the source returns for `D`. -/
theorem edge_list_not_equal_source_list :
    List.lookup "D@1.0" (build_dependency_graph_bfs (static_fetch table7) none "A" "1.0" 20).graph
      = some ["E@1.0", "E@1.0"]
    ∧ mdeps table7 "D" = ["E@1.0"]
    ∧ (["E@1.0", "E@1.0"] : List String) ≠ ["E@1.0"] := by decide

/-- Claim C7 amended: for every static table, root, depth bound and
fuel, every entry of the returned graph belongs to some node
`name@1.0` and its edge list is the node's source dependency list
(mapped to keys, in source order) repeated once per expansion of that
node — so a node expanded exactly once carries precisely the source
list, and the engine never reorders within an expansion, but a node
reached along several branches carries one full copy per expansion. -/
theorem edge_lists_are_source_list_copies (table : List (String × List String))
    (root : String) (md : Option Int) (fuel : Nat) :
    ∀ e ∈ (build_dependency_graph_bfs (static_fetch table) md root "1.0" fuel).graph,
      ∃ name n, e.1 = keyOf name
        ∧ e.2 = (List.replicate n (mdeps table name)).flatten := by
  intro e he
  simp only [build_dependency_graph_bfs] at he ⊢
  have hshape := bfs_graph_shape table md fuel root 0 ⟨[], [], [], []⟩
  have hnodup := hshape.2.2 (by simp)
  have hlook := lookup_of_mem_nodup _ hnodup e he
  by_cases hform : ∀ m : String, e.1 ≠ m ++ "@" ++ "1.0"
  · exfalso
    have h0 := hshape.2.1 e.1 hform
    rw [hlook] at h0
    exact absurd h0 (by simp)
  · push_neg at hform
    obtain ⟨m, hm⟩ := hform
    obtain ⟨n, hn⟩ := hshape.1 m
    refine ⟨m, n, hm, ?_⟩
    rw [← hm] at hn
    rw [hlook] at hn
    simpa using hn

/-- Witness for the amended C7 theorem: the entry of `A@1.0` in the
demo-table traversal is one copy of `A`'s source dependency list. -/
theorem edge_lists_are_source_list_copies_witness :
    ∃ name n, ("A@1.0" : String) = keyOf name
      ∧ ["B@1.0", "C@1.0"] = (List.replicate n (mdeps load_demo_dependencies name)).flatten :=
  edge_lists_are_source_list_copies load_demo_dependencies "A" none 20
    ("A@1.0", ["B@1.0", "C@1.0"]) (by decide)

/-- Claim C9: a key reachable along several distinct in-bound acyclic
paths is re-expanded once per path and its full dependency list is
appended each time: `D` in `A→[B,C], B→[D], C→[D], D→[E], E→[]` (two
paths) ends with its source list twice, and `E` in `A→[B,C,D], B→[E],
C→[E], D→[E], E→[F], F→[]` (three paths) ends with its source list
three times — duplicates are kept, nothing is de-duplicated. -/
theorem duplicate_edges_per_path :
    List.lookup "D@1.0" (build_dependency_graph_bfs (static_fetch table7) none "A" "1.0" 20).graph
      = some ((List.replicate 2 (mdeps table7 "D")).flatten)
    ∧ List.lookup "E@1.0" (build_dependency_graph_bfs (static_fetch table9) none "A" "1.0" 20).graph
      = some ((List.replicate 3 (mdeps table9 "E")).flatten) := by decide

/-- Claim C8 counterexample: called with `max_depth = -1` on the demo
table, the engine performs no up-front validation: it returns a normal
result — the empty graph, no cycles, no depth entries — instead of
raising a configuration error. -/
theorem negative_max_depth_returns_empty :
    build_dependency_graph_bfs (static_fetch load_demo_dependencies) (some (-1)) "A" "1.0" 10
      = ⟨[], [], [], []⟩ := by decide

/-- Claim C8 amended: a negative `max_depth` is not rejected and raises
nothing: for every source, root and fuel the engine returns a perfectly
normal result whose graph, cycle report and depth map are all empty,
because the root call is pruned by the `current_depth > max_depth`
guard before anything is recorded. -/
theorem negative_max_depth_no_rejection
    (fetch : String → String → Except String (List (String × String)))
    (m : Int) (root_package root_version : String) (fuel : Nat) (h : m < 0) :
    build_dependency_graph_bfs fetch (some m) root_package root_version fuel
      = ⟨[], [], [], []⟩ := by
  cases fuel with
  | zero => rfl
  | succ fuel =>
    unfold build_dependency_graph_bfs
    simp only [bfs_recursive]
    have hd : depthExceeded 0 (some m) = true := by
      simp only [depthExceeded, decide_eq_true_eq]
      omega
    simp [hd]

/-- Witness for the amended C8 theorem at a concrete negative depth. -/
theorem negative_max_depth_no_rejection_witness :
    build_dependency_graph_bfs (static_fetch load_demo_dependencies) (some (-2)) "B" "1.0" 7
      = ⟨[], [], [], []⟩ :=
  negative_max_depth_no_rejection (static_fetch load_demo_dependencies) (-2) "B" "1.0" 7
    (by decide)

/-- Claim C10: the active-path scratch state is always restored — for
every source (including failing ones), every depth bound, fuel, node and
starting state, `bfs_recursive` returns with `visited` exactly as it
received it (each visit pops the key it added, also on fetch error), and
consequently the engine hands its caller an empty `visited` map. -/
theorem visited_restored_on_return :
    (∀ (fetch : String → String → Except String (List (String × String)))
        (max_depth : Option Int) (fuel : Nat) (package version : String)
        (current_depth : Nat) (st : TraversalState),
      (bfs_recursive fetch max_depth fuel package version current_depth st).visited
        = st.visited)
    ∧ (∀ (fetch : String → String → Except String (List (String × String)))
        (max_depth : Option Int) (root_package root_version : String) (fuel : Nat),
      (build_dependency_graph_bfs fetch max_depth root_package root_version fuel).visited
        = []) := by
  constructor
  · intro fetch max_depth fuel package version current_depth st
    exact bfs_visited_stable fetch max_depth fuel package version current_depth st
  · intro fetch max_depth root_package root_version fuel
    exact bfs_visited_stable fetch max_depth fuel root_package root_version 0 ⟨[], [], [], []⟩

/-- Claim C5: with `max_depth = 0` and any source that yields `deps`
for the root, the returned state records only the root: the root's
direct dependencies become the root's outgoing edges (no entry at all
when there are none), the depth map holds exactly the root at depth 0,
and no child is expanded (every child call is pruned by the depth guard
before fetching), so no cycles and no other depth entries exist. -/
theorem max_depth_zero_only_root
    (fetch : String → String → Except String (List (String × String)))
    (root_package root_version : String) (deps : List (String × String)) (fuel : Nat)
    (hfetch : fetch root_package root_version = Except.ok deps) (hfuel : 1 ≤ fuel) :
    build_dependency_graph_bfs fetch (some 0) root_package root_version fuel =
      { graph := if deps.isEmpty then []
          else [(root_package ++ "@" ++ root_version,
            deps.map (fun d => d.1 ++ "@" ++ d.2))],
        visited := [],
        cycles_detected := [],
        depth_info := [(root_package ++ "@" ++ root_version, 0)] } := by
  obtain ⟨f, rfl⟩ : ∃ f, fuel = f + 1 := ⟨fuel - 1, by omega⟩
  unfold build_dependency_graph_bfs
  simp only [bfs_recursive]
  have hd : depthExceeded 0 (some 0) = false := rfl
  have hchild : ∀ (n v : String) (s : TraversalState),
      bfs_recursive fetch (some 0) f n v 1 s = s := fun n v s =>
    bfs_depth_stops fetch (some 0) f n v 1 s rfl
  have hdeps : ∀ (l : List (String × String)) (s : TraversalState),
      bfs_deps (bfs_recursive fetch (some 0) f)
          (root_package ++ "@" ++ root_version) 0 l s
        = { s with graph := l.foldl (fun g dep =>
            appendEdge g (root_package ++ "@" ++ root_version)
              (dep.1 ++ "@" ++ dep.2)) s.graph } := by
    intro l
    induction l with
    | nil => intro s; rfl
    | cons dep rest ihl =>
      intro s
      simp only [bfs_deps, List.foldl_cons]
      rw [hchild, ihl]
  have haccum : ∀ (rest : List (String × String)) (cur : List String),
      rest.foldl (fun g dep => appendEdge g (root_package ++ "@" ++ root_version)
          (dep.1 ++ "@" ++ dep.2)) [(root_package ++ "@" ++ root_version, cur)]
        = [(root_package ++ "@" ++ root_version,
            cur ++ rest.map (fun d => d.1 ++ "@" ++ d.2))] := by
    intro rest
    induction rest with
    | nil => intro cur; simp
    | cons e rest ihr =>
      intro cur
      simp only [List.foldl_cons]
      have happ : appendEdge [(root_package ++ "@" ++ root_version, cur)]
          (root_package ++ "@" ++ root_version) (e.1 ++ "@" ++ e.2)
            = [(root_package ++ "@" ++ root_version, cur ++ [e.1 ++ "@" ++ e.2])] := by
        simp [appendEdge]
      rw [happ, ihr]
      simp
  simp only [hd, Bool.false_eq_true, if_false, List.any_nil, hfetch]
  rw [hdeps]
  have herase : eraseKey [(root_package ++ "@" ++ root_version, 0)]
      (root_package ++ "@" ++ root_version) = [] := by
    simp [eraseKey, List.eraseP_cons]
  cases deps with
  | nil =>
    simp only [List.foldl_nil, List.isEmpty_nil, if_true]
    simp [assocSet, herase]
  | cons d rest =>
    have h0 : appendEdge ([] : List (String × List String))
        (root_package ++ "@" ++ root_version) (d.1 ++ "@" ++ d.2)
          = [(root_package ++ "@" ++ root_version, [d.1 ++ "@" ++ d.2])] := rfl
    simp only [List.foldl_cons, List.isEmpty_cons, if_false]
    simp only [assocSet, List.any_nil, Bool.false_eq_true, if_false, List.nil_append]
    rw [h0, haccum]
    simp [herase]

/-- Claim C2: for every static dependency table whose dependency
relation is acyclic on the nodes reachable from the root (a pure DAG,
shared sub-branches included), and for every depth bound (finite,
negative or unbounded) and fuel, the cycle report of the traversal is
empty: the path-scoped `visited` check can only fire on a genuine
dependency cycle. -/
theorem dag_cycle_report_empty (table : List (String × List String)) (root : String)
    (md : Option Int) (fuel : Nat)
    (hacyc : ∀ n, Relation.ReflTransGen (depStep table) root n →
      ¬ Relation.TransGen (depStep table) n n) :
    (build_dependency_graph_bfs (static_fetch table) md root "1.0" fuel).cycles_detected
      = [] := by
  unfold build_dependency_graph_bfs
  exact bfs_static_dag_no_cycle table md root hacyc fuel root 0 ⟨[], [], [], []⟩ []
    rfl (by simp) (by intro v hv; simp at hv; subst hv; exact Relation.ReflTransGen.refl)

/-- Witness for the C2 theorem: the two-node DAG `A→[B], B→[]` is
acyclic, and traversing it reports no cycles. -/
theorem dag_cycle_report_empty_witness :
    (build_dependency_graph_bfs (static_fetch [("A", ["B"]), ("B", [])])
        none "A" "1.0" 10).cycles_detected = [] := by
  have hr : ∀ x y, depStep [("A", ["B"]), ("B", [])] x y → x = "A" ∧ y = "B" := by
    intro x y h
    simp only [depStep, depsOf] at h
    by_cases hx : x = "A"
    · subst hx
      simp [List.lookup] at h
      exact ⟨rfl, h⟩
    · by_cases hx2 : x = "B"
      · subst hx2
        simp [List.lookup] at h
      · rw [lookup_cons_ne "A" x ["B"] _ (beq_eq_false_iff_ne.mpr hx),
          lookup_cons_ne "B" x [] [] (beq_eq_false_iff_ne.mpr hx2)] at h
        simp at h
  have htg : ∀ a b, Relation.TransGen (depStep [("A", ["B"]), ("B", [])]) a b →
      a = "A" ∧ b = "B" := by
    intro a b h
    induction h with
    | single h1 => exact hr _ _ h1
    | tail hab hbc ih =>
      have h1 := hr _ _ hbc
      rw [ih.2] at h1
      exact absurd h1.1 (by decide)
  refine dag_cycle_report_empty [("A", ["B"]), ("B", [])] "A" none 10 ?_
  intro n _ h
  have := htg n n h
  rw [this.1] at this
  exact absurd this.2 (by decide)

/-- Witness for the C5 theorem on the demo table: the root `A`'s two
direct dependencies are recorded, nothing else is expanded. -/
theorem max_depth_zero_only_root_witness :
    build_dependency_graph_bfs (static_fetch load_demo_dependencies) (some 0) "A" "1.0" 5 =
      { graph := [("A" ++ "@" ++ "1.0", [("B" : String) ++ "@" ++ "1.0", "C" ++ "@" ++ "1.0"])],
        visited := [],
        cycles_detected := [],
        depth_info := [("A" ++ "@" ++ "1.0", 0)] } :=
  max_depth_zero_only_root (static_fetch load_demo_dependencies) "A" "1.0"
    [("B", "1.0"), ("C", "1.0")] 5 rfl (by decide)
